import Mathlib

/-!
Verification of the XewaliChessRust engine (search/evaluation kernel and UCI
adapter) against its natural-language specification.

The Rust sources (`src/engine.rs`, `src/evaluation.rs`, `src/main.rs`,
`src/book.rs`) are shallowly embedded below.  The chess rules primitive
library (the `chess` crate: board representation, legal move generation,
Zobrist hashing, bitboards) is deliberately out of the specification's scope,
so it is modelled as an abstract interface `ChessLib` over abstract types of
positions, moves and squares; every function written in the repository itself
is translated from its Rust body.

Modelling conventions:
* `f64` scores are modelled by `Score` — rationals extended with the two
  infinities (`f64::NEG_INFINITY` / `f64::INFINITY`).  The search code only
  compares, maxes and mins scores, which these model exactly (no NaN arises:
  the evaluator never divides by zero and never takes `ln` of a nonpositive
  number).
* `HashMap<u64, TTEntry>` is modelled by an association list with
  insert-or-replace; `Vec<u64>` push/pop by `++ [x]` / `dropLast`.
* Wall-clock polling (`start.elapsed() > self.time_limit`) is modelled by an
  oracle `timeUp : Nat → Bool` of the node counter, since real time is not
  representable; the node-counter gating (`nodes & 4095 == 0`) is kept.
* The Rust recursion of `search`/`quiescence` terminates on `depth` /
  `qs_depth`; to keep the Lean translation structurally recursive (and hence
  evaluable by `rfl`/`decide`), each function carries an explicit fuel that
  every nested call decrements.  With adequate fuel the fuel-exhaustion
  branch is never taken; the safety/frame theorems below hold for every fuel.
* `rand::thread_rng` based selection (`SliceRandom::choose`) is modelled by a
  parameter `choose : List Move → Option Move`; the theorems that need it
  assume only what `choose` guarantees (an element of a nonempty list).
-/

namespace Xewali

/-- Chess piece kinds, as in the `chess` crate's `Piece` enum. -/
inductive Piece where
  | Pawn
  | Knight
  | Bishop
  | Rook
  | Queen
  | King
deriving DecidableEq

/-- Side colours, as in the `chess` crate's `Color` enum. -/
inductive Color where
  | White
  | Black
deriving DecidableEq

/-- Model of `f64` as used by the engine: a rational, or one of the two
infinities (`f64::NEG_INFINITY`, `f64::INFINITY`).  The engine only ever
compares scores and takes max/min, which this models exactly. -/
inductive Score where
  | negInf : Score
  | fin : ℚ → Score
  | posInf : Score
deriving DecidableEq

/-- IEEE `<=` on non-NaN doubles, restricted to the values the engine uses. -/
def Score.ble : Score → Score → Bool
  | .negInf, _ => true
  | .fin _, .negInf => false
  | .fin a, .fin b => a ≤ b
  | .fin _, .posInf => true
  | .posInf, .posInf => true
  | .posInf, _ => false

/-- IEEE `<` on non-NaN doubles: `a < b` iff not `b <= a`. -/
def Score.blt (a b : Score) : Bool := !(Score.ble b a)

/-- Rust `f64::max` (no NaN among the engine's scores). -/
def Score.maxS (a b : Score) : Score := if Score.ble a b then b else a

/-- Rust `f64::min` (no NaN among the engine's scores). -/
def Score.minS (a b : Score) : Score := if Score.ble a b then a else b

/-- Mate evaluation score, `evaluation.rs`: `pub const MATE_EVAL: f64 = 1e6`. -/
def MATE_EVAL : ℚ := 1000000

/-- Test `best_eval.abs() == MATE_EVAL` as in `play_move` (engine.rs:493);
the absolute value of an infinity is the infinity, never `1e6`. -/
def Score.absEqMate : Score → Bool
  | .fin q => q == MATE_EVAL || q == -MATE_EVAL
  | _ => false

/-- engine.rs:13 — maximum number of transposition-table entries. -/
def MAX_TT_ENTRIES : ℕ := 1000000

/-- engine.rs:16 — maximum depth for quiescence search. -/
def MAX_QUIESCENCE_DEPTH : ℤ := 8

/-- engine.rs:19 — null-move pruning reduction. -/
def NULL_MOVE_R : ℤ := 2

/-- engine.rs:23-27 — transposition table bound type. -/
inductive TTFlag where
  | Exact
  | LowerBound
  | UpperBound
deriving DecidableEq

/-- engine.rs:30-36 — transposition table entry. -/
structure TTEntry (Move : Type) where
  depth : ℤ
  eval : Score
  flag : TTFlag
  best_move : Option Move
deriving DecidableEq

/-- engine.rs:39-46 — shared search state passed through the recursion.
`start`/`time_limit` are absorbed into the `timeUp` oracle (see module
docstring); `nodes` is the `u64` node counter. -/
structure SearchState (Move : Type) where
  transposition_table : List (ℕ × TTEntry Move)
  position_history : List ℕ
  nodes : ℕ
  stopped : Bool
deriving DecidableEq

/-- engine.rs:49-54 — `SearchState::check_time`: increment the node counter
(a `u64`, hence the reduction modulo `2 ^ 64`) and poll the clock every 4096
nodes. -/
def check_time {Move : Type} (timeUp : ℕ → Bool) (s : SearchState Move) :
    SearchState Move :=
  let nodes := (s.nodes + 1) % 2 ^ 64
  if nodes &&& 4095 == 0 && timeUp nodes then
    { s with nodes := nodes, stopped := true }
  else
    { s with nodes := nodes }

/-- Abstract interface of the `chess` crate primitives the engine consumes
(board representation, legal move generation, Zobrist hashing, bitboards),
together with `ChessMove::from_str`/`Display` and the engine's own UCI
fallback parser `parse_uci_move` (engine.rs:528-580), whose internals no
claim below depends on.  Bitboards are `u64` values modelled as `ℕ`. -/
structure ChessLib (Pos Move Sq : Type) where
  getHash : Pos → ℕ
  legalMoves : Pos → List Move
  makeMove : Pos → Move → Pos
  nullMove : Pos → Option Pos
  sideToMove : Pos → Color
  checkersBB : Pos → ℕ
  pieceOn : Pos → Sq → Option Piece
  enPassant : Pos → Option Sq
  getSource : Move → Sq
  getDest : Move → Sq
  getPromotion : Move → Option Piece
  piecesBB : Pos → Piece → ℕ
  colorCombinedBB : Pos → Color → ℕ
  eval : Pos → Score
  format : Move → String
  fromStr : String → Option Move
  parseUciMove : Pos → String → Option Move

variable {Pos Move Sq : Type}

/-- engine.rs:58-72 — check if a move is a capture (destination occupied, or
a pawn moving onto the en-passant square). -/
def is_capture [DecidableEq Sq] (lib : ChessLib Pos Move Sq) (board : Pos)
    (mv : Move) : Bool :=
  if (lib.pieceOn board (lib.getDest mv)).isSome then true
  else
    match lib.enPassant board with
    | some epSq =>
      if lib.getDest mv == epSq then
        match lib.pieceOn board (lib.getSource mv) with
        | some p => p == Piece.Pawn
        | none => false
      else false
    | none => false

/-- engine.rs:155-164 — material value of a piece for move ordering. -/
def piece_order_value : Piece → ℤ
  | .Pawn => 100
  | .Knight => 320
  | .Bishop => 330
  | .Rook => 500
  | .Queen => 900
  | .King => 20000

/-- engine.rs:167-195 — score a move for ordering (TT move first, then
promotions and MVV-LVA captures including en passant). -/
def score_move [DecidableEq Move] [DecidableEq Sq] (lib : ChessLib Pos Move Sq)
    (board : Pos) (mv : Move) (ttMove : Option Move) : ℤ :=
  if ttMove == some mv then 100000
  else
    let score : ℤ := 0
    let score :=
      match lib.getPromotion mv with
      | some promo => score + 9000 + piece_order_value promo
      | none => score
    match lib.pieceOn board (lib.getDest mv) with
    | some victim =>
      let attacker := (lib.pieceOn board (lib.getSource mv)).getD Piece.Pawn
      score + piece_order_value victim * 10 - piece_order_value attacker
    | none =>
      match lib.enPassant board with
      | some epSq =>
        if lib.getDest mv == epSq then
          match lib.pieceOn board (lib.getSource mv) with
          | some p => if p == Piece.Pawn then score + (100 * 10 - 100) else score
          | none => score
        else score
      | none => score

/-- engine.rs:198-205 — whether a side has non-pawn material (knight, bishop,
rook or queen), computed on bitboards. -/
def has_non_pawn_material (lib : ChessLib Pos Move Sq) (board : Pos)
    (color : Color) : Bool :=
  let ourPieces := lib.colorCombinedBB board color
  let knights := lib.piecesBB board Piece.Knight &&& ourPieces
  let bishops := lib.piecesBB board Piece.Bishop &&& ourPieces
  let rooks := lib.piecesBB board Piece.Rook &&& ourPieces
  let queens := lib.piecesBB board Piece.Queen &&& ourPieces
  (knights ||| bishops ||| rooks ||| queens) != 0

/-- `HashMap::insert` on the association-list model: replace the entry for
the key when present, otherwise add a new binding. -/
def ttInsert {Move : Type} (tt : List (ℕ × TTEntry Move)) (key : ℕ)
    (e : TTEntry Move) : List (ℕ × TTEntry Move) :=
  if (tt.lookup key).isSome then
    tt.map (fun p => if p.1 == key then (key, e) else p)
  else (key, e) :: tt

/-- engine.rs:383-393 — the guarded transposition-table store: insert only
while the table holds fewer than `MAX_TT_ENTRIES` entries, else drop. -/
def ttStore {Move : Type} (s : SearchState Move) (key : ℕ) (e : TTEntry Move) :
    SearchState Move :=
  if s.transposition_table.length < MAX_TT_ENTRIES then
    { s with transposition_table := ttInsert s.transposition_table key e }
  else s

/-- engine.rs:366-380 — the TT bound flag computed on node completion from
`best_eval` and the original window; note the side-to-move branch, which
inverts the mapping for Black. -/
def ttFlagOf (whiteToMove : Bool) (bestEval originalAlpha originalBeta : Score) :
    TTFlag :=
  if whiteToMove then
    if bestEval.ble originalAlpha then TTFlag.UpperBound
    else if originalBeta.ble bestEval then TTFlag.LowerBound
    else TTFlag.Exact
  else if originalBeta.ble bestEval then TTFlag.UpperBound
  else if bestEval.ble originalAlpha then TTFlag.LowerBound
  else TTFlag.Exact

/-- Spec §4.2's flag derivation, written from the specification's words for
comparison with `ttFlagOf`: `best_score ≤ α₀ → Upper`,
`best_score ≥ β₀ → Lower`, else `Exact` — with no dependence on the side to
move. -/
def spec_tt_flag (bestEval originalAlpha originalBeta : Score) : TTFlag :=
  if bestEval.ble originalAlpha then TTFlag.UpperBound
  else if originalBeta.ble bestEval then TTFlag.LowerBound
  else TTFlag.Exact

/-- engine.rs:365-393 — node completion: flag derivation followed by the
guarded TT store, returning `best_eval`. -/
def finishNode {Move : Type} (key : ℕ) (depth : ℤ) (white : Bool)
    (alpha0 beta0 bestEval : Score) (bestMove : Move) (s : SearchState Move) :
    Score × SearchState Move :=
  (bestEval,
    ttStore s key
      (TTEntry.mk depth bestEval (ttFlagOf white bestEval alpha0 beta0)
        (some bestMove)))

/-- engine.rs:98-123 — the White (maximising) capture loop of `quiescence`,
with the recursive call abstracted as `recur` (instantiated with the
quiescence of the next fuel at `qs_depth + 1`).  Non-captures are skipped;
each capture is searched, with beta cutoff and alpha raising. -/
def qloopWhite [DecidableEq Sq] (lib : ChessLib Pos Move Sq)
    (recur : Pos → Score → Score → SearchState Move → Score × SearchState Move)
    (board : Pos) :
    List Move → Score → Score → SearchState Move → Score × SearchState Move
  | [], alpha, _beta, s => (alpha, s)
  | mv :: rest, alpha, beta, s =>
    if !(is_capture lib board mv) then qloopWhite lib recur board rest alpha beta s
    else
      let r := recur (lib.makeMove board mv) alpha beta s
      if r.2.stopped then (Score.fin 0, r.2)
      else if beta.ble r.1 then (beta, r.2)
      else if alpha.blt r.1 then qloopWhite lib recur board rest r.1 beta r.2
      else qloopWhite lib recur board rest alpha beta r.2

/-- engine.rs:124-150 — the Black (minimising) capture loop of `quiescence`:
alpha cutoff and beta lowering, mirroring `qloopWhite`. -/
def qloopBlack [DecidableEq Sq] (lib : ChessLib Pos Move Sq)
    (recur : Pos → Score → Score → SearchState Move → Score × SearchState Move)
    (board : Pos) :
    List Move → Score → Score → SearchState Move → Score × SearchState Move
  | [], _alpha, beta, s => (beta, s)
  | mv :: rest, alpha, beta, s =>
    if !(is_capture lib board mv) then qloopBlack lib recur board rest alpha beta s
    else
      let r := recur (lib.makeMove board mv) alpha beta s
      if r.2.stopped then (Score.fin 0, r.2)
      else if r.1.ble alpha then (alpha, r.2)
      else if r.1.blt beta then qloopBlack lib recur board rest alpha r.1 r.2
      else qloopBlack lib recur board rest alpha beta r.2

/-- engine.rs:75-152 — quiescence search: stand-pat evaluation, depth cap at
`MAX_QUIESCENCE_DEPTH`, then captures only.  The extra fuel argument makes
the recursion structural; with adequate fuel the fuel-0 branch (which mirrors
the stopped-unwind return `0.0`) is unreachable. -/
def quiescence [DecidableEq Sq] (lib : ChessLib Pos Move Sq)
    (timeUp : ℕ → Bool) :
    ℕ → Pos → Score → Score → ℤ → SearchState Move → Score × SearchState Move
  | 0, _, _, _, _, s => (Score.fin 0, s)
  | fuel + 1, board, alpha, beta, qsDepth, s =>
    if s.stopped then (Score.fin 0, s)
    else
      let s1 := check_time timeUp s
      if s1.stopped then (Score.fin 0, s1)
      else
        let standPat := lib.eval board
        if MAX_QUIESCENCE_DEPTH ≤ qsDepth then (standPat, s1)
        else
          let white := lib.sideToMove board == Color.White
          if white then
            if beta.ble standPat then (beta, s1)
            else
              let alpha1 := if alpha.blt standPat then standPat else alpha
              qloopWhite lib
                (fun b a bb st => quiescence lib timeUp fuel b a bb (qsDepth + 1) st)
                board (lib.legalMoves board) alpha1 beta s1
          else
            if standPat.ble alpha then (alpha, s1)
            else
              let beta1 := if standPat.blt beta then standPat else beta
              qloopBlack lib
                (fun b a bb st => quiescence lib timeUp fuel b a bb (qsDepth + 1) st)
                board (lib.legalMoves board) alpha beta1 s1

/-- A single insertion of the stable descending insertion sort used to model
`Vec::sort_by(|a, b| b.1.cmp(&a.1))` on `(move, score)` pairs. -/
def insertScoredDesc {Move : Type} (x : Move × ℤ) :
    List (Move × ℤ) → List (Move × ℤ)
  | [] => [x]
  | y :: ys => if y.2 ≤ x.2 then x :: y :: ys else y :: insertScoredDesc x ys

/-- Stable sort of `(move, score)` pairs by descending score, modelling
Rust's stable `sort_by` with comparator `b.1.cmp(&a.1)` (engine.rs:297). -/
def sortScoredDesc {Move : Type} : List (Move × ℤ) → List (Move × ℤ)
  | [] => []
  | x :: xs => insertScoredDesc x (sortScoredDesc xs)

/-- engine.rs:292-298 — move ordering: score every legal move with
`score_move` and sort by descending score. -/
def orderMoves [DecidableEq Move] [DecidableEq Sq] (lib : ChessLib Pos Move Sq)
    (board : Pos) (ttMove : Option Move) (moves : List Move) : List Move :=
  (sortScoredDesc (moves.map (fun mv => (mv, score_move lib board mv ttMove)))).map
    (fun p => p.1)

/-- engine.rs:316-338 — the per-move child search of the main loop: a
reduced-depth search with possible re-search under LMR, a plain
`depth - 1` search otherwise.  Returns the score/state pair and a flag
marking the LMR stopped-unwind path (which pops the pushed hash and makes
the caller return `0.0` at once). -/
def searchChild {Move : Type}
    (recur : Pos → Score → Score → ℤ → Bool → SearchState Move →
      Score × SearchState Move)
    (newBoard : Pos) (alpha beta : Score) (depth : ℤ) (white doLmr : Bool)
    (sPush : SearchState Move) : (Score × SearchState Move) × Bool :=
  if doLmr then
    let r1 := recur newBoard alpha beta (depth - 2) true sPush
    if r1.2.stopped then
      ((Score.fin 0,
        { r1.2 with position_history := r1.2.position_history.dropLast }),
        true)
    else
      let needsResearch := if white then alpha.blt r1.1 else r1.1.blt beta
      if needsResearch then (recur newBoard alpha beta (depth - 1) true r1.2, false)
      else (r1, false)
  else (recur newBoard alpha beta (depth - 1) true sPush, false)

/-- engine.rs:309-363 plus 365-395 — the main move loop of `search`, with the
recursive call abstracted as `recur` (instantiated with the search of the
next fuel).  Carries the loop index `i`, the shrinking window, the running
best, and the state; pushes the parent hash before each child and pops it
after, returns `0.0` on the stopped-unwind paths, breaks on `beta <= alpha`,
and finishes with the flag derivation and guarded TT store. -/
def searchLoop [DecidableEq Move] [DecidableEq Sq] (lib : ChessLib Pos Move Sq)
    (recur : Pos → Score → Score → ℤ → Bool → SearchState Move →
      Score × SearchState Move)
    (board : Pos) (key : ℕ) (depth : ℤ) (white inChk : Bool)
    (alpha0 beta0 : Score) :
    List Move → ℕ → Score → Score → Score → Move → SearchState Move →
      Score × SearchState Move
  | [], _, _, _, bestEval, bestMove, s =>
    finishNode key depth white alpha0 beta0 bestEval bestMove s
  | mv :: rest, i, alpha, beta, bestEval, bestMove, s =>
    let capture := is_capture lib board mv
    let isPromo := (lib.getPromotion mv).isSome
    let newBoard := lib.makeMove board mv
    let sPush : SearchState Move :=
      { s with position_history := s.position_history ++ [key] }
    let givesCheck := lib.checkersBB newBoard != 0
    let doLmr := decide (4 ≤ i) && decide (3 ≤ depth) && !capture && !inChk &&
      !isPromo && !givesCheck
    let step := searchChild recur newBoard alpha beta depth white doLmr sPush
    if step.2 then step.1
    else
      let score := step.1.1
      let sPop : SearchState Move :=
        { step.1.2 with position_history := step.1.2.position_history.dropLast }
      if sPop.stopped then (Score.fin 0, sPop)
      else
        let newBest : Score × Move :=
          if white then
            if bestEval.blt score then (score, mv) else (bestEval, bestMove)
          else
            if score.blt bestEval then (score, mv) else (bestEval, bestMove)
        let alpha1 := if white then Score.maxS alpha score else alpha
        let beta1 := if white then beta else Score.minS beta score
        if beta1.ble alpha1 then
          finishNode key depth white alpha0 beta0 newBest.1 newBest.2 sPop
        else
          searchLoop lib recur board key depth white inChk alpha0 beta0 rest
            (i + 1) alpha1 beta1 newBest.1 newBest.2 sPop

/-- engine.rs:261-282 — the null-move pruning step: when enabled, search the
null-moved position with the reduced depth `depth - 1 - NULL_MOVE_R` and
null moves disallowed; the first component carries an early return
(`0.0` when stopped, `beta`/`alpha` on the null cutoff), the second the
state the main loop continues with. -/
def nullStep {Pos Move Sq : Type} (lib : ChessLib Pos Move Sq)
    (searchRec : Pos → Score → Score → ℤ → Bool → SearchState Move →
      Score × SearchState Move)
    (board : Pos) (alpha beta : Score) (depth : ℤ) (white tryNull : Bool)
    (s1 : SearchState Move) :
    Option (Score × SearchState Move) × SearchState Move :=
  if tryNull then
    match lib.nullMove board with
    | some nb =>
      let r := searchRec nb alpha beta (depth - 1 - NULL_MOVE_R) false s1
      if r.2.stopped then (some (Score.fin 0, r.2), r.2)
      else if white && beta.ble r.1 then (some (beta, r.2), r.2)
      else if !white && r.1.ble alpha then (some (alpha, r.2), r.2)
      else (none, r.2)
    | none => (none, s1)
  else (none, s1)

/-- engine.rs:208-396 — negamax-shaped minimax search with alpha-beta
pruning, repetition detection, TT probe, quiescence at depth 0, null-move
pruning and LMR (via `searchLoop`).  The fuel argument makes the recursion
structural; the fuel-0 branch mirrors the stopped-unwind return `0.0` and is
unreachable with adequate fuel. -/
def search [DecidableEq Move] [DecidableEq Sq] (lib : ChessLib Pos Move Sq)
    (timeUp : ℕ → Bool) :
    ℕ → Pos → Score → Score → ℤ → Bool → SearchState Move →
      Score × SearchState Move
  | 0, _, _, _, _, _, s => (Score.fin 0, s)
  | fuel + 1, board, alpha, beta, depth, allowNull, s =>
    if s.stopped then (Score.fin 0, s)
    else
      let s1 := check_time timeUp s
      if s1.stopped then (Score.fin 0, s1)
      else
        let key := lib.getHash board
        if 2 ≤ s1.position_history.count key then (Score.fin 0, s1)
        else
          let entry? := s1.transposition_table.lookup key
          let ttMove : Option Move :=
            match entry? with
            | some e => e.best_move
            | none => none
          let probeHit : Option Score :=
            match entry? with
            | some e =>
              if depth ≤ e.depth then
                match e.flag with
                | TTFlag.Exact => some e.eval
                | TTFlag.LowerBound => if beta.ble e.eval then some e.eval else none
                | TTFlag.UpperBound => if e.eval.ble alpha then some e.eval else none
              else none
            | none => none
          match probeHit with
          | some v => (v, s1)
          | none =>
            if depth ≤ 0 then quiescence lib timeUp fuel board alpha beta 0 s1
            else
              let white := lib.sideToMove board == Color.White
              let inChk := lib.checkersBB board != 0
              let tryNull := allowNull && !inChk && decide (3 ≤ depth) &&
                has_non_pawn_material lib board (lib.sideToMove board)
              let nullRes := nullStep lib
                (fun b a bb d n st => search lib timeUp fuel b a bb d n st)
                board alpha beta depth white tryNull s1
              match nullRes.1 with
              | some res => res
              | none =>
                let s2 := nullRes.2
                let moves := lib.legalMoves board
                if moves.isEmpty then (lib.eval board, s2)
                else
                  match orderMoves lib board ttMove moves with
                  | [] => (lib.eval board, s2)
                  | m0 :: ms =>
                    searchLoop lib
                      (fun b a bb d n st => search lib timeUp fuel b a bb d n st)
                      board key depth white inChk alpha beta (m0 :: ms) 0 alpha
                      beta (if white then Score.negInf else Score.posInf) m0 s2

/-- engine.rs:452-478 — the per-depth root-move loop of `play_move`: search
each root move with the full window at `depth - 1`, break (leaving the
remaining stored evals untouched) once the state is stopped, otherwise write
the score back into the move list and track the best of this depth. -/
def root_moves_loop [DecidableEq Move] [DecidableEq Sq]
    (lib : ChessLib Pos Move Sq) (timeUp : ℕ → Bool) (fuel : ℕ) (board : Pos)
    (depth : ℤ) (white : Bool) :
    List (Move × Score) → Move → Score → SearchState Move →
      List (Move × Score) × Move × Score × SearchState Move
  | [], depthBestMove, depthBestEval, s => ([], depthBestMove, depthBestEval, s)
  | (mv, ev) :: rest, depthBestMove, depthBestEval, s =>
    let r := search lib timeUp fuel (lib.makeMove board mv) Score.negInf
      Score.posInf (depth - 1) true s
    if r.2.stopped then ((mv, ev) :: rest, depthBestMove, depthBestEval, r.2)
    else
      let db : Move × Score :=
        if white then
          if depthBestEval.blt r.1 then (mv, r.1) else (depthBestMove, depthBestEval)
        else
          if r.1.blt depthBestEval then (mv, r.1) else (depthBestMove, depthBestEval)
      let rec1 := root_moves_loop lib timeUp fuel board depth white rest db.1 db.2 r.2
      ((mv, r.1) :: rec1.1, rec1.2)

/-- One insertion of the stable descending insertion sort on
`(move, eval)` pairs, modelling the White re-sort of root moves
(engine.rs:487, stable `sort_by` with `b.1.partial_cmp(&a.1)`). -/
def insertRootDesc {Move : Type} (x : Move × Score) :
    List (Move × Score) → List (Move × Score)
  | [] => [x]
  | y :: ys => if y.2.ble x.2 then x :: y :: ys else y :: insertRootDesc x ys

/-- Stable descending sort of root moves by eval (White's re-sort). -/
def sortRootDesc {Move : Type} : List (Move × Score) → List (Move × Score)
  | [] => []
  | x :: xs => insertRootDesc x (sortRootDesc xs)

/-- One insertion of the stable ascending insertion sort on `(move, eval)`
pairs, modelling the Black re-sort of root moves (engine.rs:489). -/
def insertRootAsc {Move : Type} (x : Move × Score) :
    List (Move × Score) → List (Move × Score)
  | [] => [x]
  | y :: ys => if x.2.ble y.2 then x :: y :: ys else y :: insertRootAsc x ys

/-- Stable ascending sort of root moves by eval (Black's re-sort). -/
def sortRootAsc {Move : Type} : List (Move × Score) → List (Move × Score)
  | [] => []
  | x :: xs => insertRootAsc x (sortRootAsc xs)

/-- engine.rs:444-499 — the iterative-deepening driver: run the root-move
loop at the current depth; if it completed, commit its best, re-sort the
root moves for the next depth, stop on a mate score, else deepen; if it was
stopped, keep the previously committed best.  The fuel bounds the otherwise
unbounded `for depth in 1..` loop. -/
def iterative_deepening [DecidableEq Move] [DecidableEq Sq]
    (lib : ChessLib Pos Move Sq) (timeUp : ℕ → Bool) (fuel : ℕ) (board : Pos)
    (white : Bool) :
    ℕ → ℤ → List (Move × Score) → Move → Score → SearchState Move →
      Move × Score × SearchState Move
  | 0, _, _, bestMove, bestEval, s => (bestMove, bestEval, s)
  | n + 1, depth, moves, bestMove, bestEval, s =>
    match moves with
    | [] => (bestMove, bestEval, s)
    | (m0, _) :: _ =>
      let init := if white then Score.negInf else Score.posInf
      let r := root_moves_loop lib timeUp fuel board depth white moves m0 init s
      if !r.2.2.2.stopped then
        let sorted := if white then sortRootDesc r.1 else sortRootAsc r.1
        if r.2.2.1.absEqMate then (r.2.1, r.2.2.1, r.2.2.2)
        else
          iterative_deepening lib timeUp fuel board white n (depth + 1) sorted
            r.2.1 r.2.2.1 r.2.2.2
      else (bestMove, bestEval, r.2.2.2)

/-- engine.rs:416-501 — the part of `play_move` after the book probe: legal
moves at the root (empty move on zero moves, immediate `eval` on a single
move), else iterative deepening from depth 1 with a fresh transposition
table, the supplied history, and initial best `(moves[0].0, 0.0)`. -/
def play_move_search [DecidableEq Move] [DecidableEq Sq]
    (lib : ChessLib Pos Move Sq) (timeUp : ℕ → Bool) (fuel : ℕ) (board : Pos)
    (history : List ℕ) : String × Score :=
  match (lib.legalMoves board).map (fun mv => (mv, Score.fin 0)) with
  | [] => ("", Score.fin 0)
  | (m0, e0) :: rest =>
    if rest.isEmpty then (lib.format m0, lib.eval board)
    else
      let white := lib.sideToMove board == Color.White
      let s0 : SearchState Move := ⟨[], history, 0, false⟩
      let r := iterative_deepening lib timeUp fuel board white fuel 1
        ((m0, e0) :: rest) m0 (Score.fin 0) s0
      (lib.format r.1, r.2.1)

/-- engine.rs:400-502 — `play_move`: probe the opening book first (random
choice via `choose` when the entry holds several moves, its sole element when
it holds one), falling through to the search otherwise.  The book
`HashMap<u64, HashSet<ChessMove>>` is modelled as an association list whose
value lists carry the set's iteration order. -/
def play_move [DecidableEq Move] [DecidableEq Sq] (lib : ChessLib Pos Move Sq)
    (timeUp : ℕ → Bool) (choose : List Move → Option Move) (fuel : ℕ)
    (board : Pos) (book : List (ℕ × List Move)) (history : List ℕ) :
    String × Score :=
  match book.lookup (lib.getHash board) with
  | some bookMoves =>
    if 1 < bookMoves.length then
      match choose bookMoves with
      | some chosen => (lib.format chosen, Score.fin 0)
      | none => play_move_search lib timeUp fuel board history
    else
      match bookMoves.head? with
      | some mv => (lib.format mv, Score.fin 0)
      | none => play_move_search lib timeUp fuel board history
  | none => play_move_search lib timeUp fuel board history

/-- engine.rs:512-522 — the move-application loop of `set_position`: parse
each move string with `ChessMove::from_str`, apply it if legal (recording the
new hash), fall back to `parse_uci_move` when `from_str` fails, and otherwise
continue with the next string (the loop has no break). -/
def set_position_loop [DecidableEq Move] (lib : ChessLib Pos Move Sq) :
    Pos → List ℕ → List String → Pos × List ℕ
  | board, history, [] => (board, history)
  | board, history, mvStr :: rest =>
    match lib.fromStr mvStr with
    | some mv =>
      if (lib.legalMoves board).contains mv then
        let b1 := lib.makeMove board mv
        set_position_loop lib b1 (history ++ [lib.getHash b1]) rest
      else set_position_loop lib board history rest
    | none =>
      match lib.parseUciMove board mvStr with
      | some mv =>
        let b1 := lib.makeMove board mv
        set_position_loop lib b1 (history ++ [lib.getHash b1]) rest
      | none => set_position_loop lib board history rest

/-- engine.rs:506-525 — `set_position`: parse the FEN (falling back to the
default board, both inside `fenParse`, which models
`Board::from_str(fen).unwrap_or_default()`), seed the history with the
initial hash, and run the move-application loop. -/
def set_position [DecidableEq Move] (lib : ChessLib Pos Move Sq)
    (fenParse : String → Pos) (fen : String) (moves : List String) :
    Pos × List ℕ :=
  let board := fenParse fen
  set_position_loop lib board [lib.getHash board] moves

/-- Board status as reported by the `chess` crate's `Board::status()`. -/
inductive BoardStatus where
  | Checkmate
  | Stalemate
  | Ongoing
deriving DecidableEq

/-- evaluation.rs:256-262 — game result type. -/
inductive GameResult where
  | Ongoing
  | WhiteWins
  | BlackWins
  | Draw
deriving DecidableEq

/-- Abstraction of a `chess` crate `Board` restricted to the observations
made by `has_game_ended` / `is_insufficient_material`: the status, the side
to move, and the population counts of the combined, knight and bishop
bitboards. -/
structure EvalBoard where
  status : BoardStatus
  side_to_move : Color
  pieceCount : ℕ
  knightCount : ℕ
  bishopCount : ℕ
deriving DecidableEq

/-- evaluation.rs:290-309 — insufficient material: two pieces (K vs K), or
three pieces with exactly one knight or exactly one bishop. -/
def is_insufficient_material (b : EvalBoard) : Bool :=
  if b.pieceCount == 2 then true
  else if b.pieceCount == 3 then b.knightCount == 1 || b.bishopCount == 1
  else false

/-- evaluation.rs:265-287 — game-end recognition: the checkmated side to move
loses, stalemate draws, and an ongoing position with insufficient material
draws. -/
def has_game_ended (b : EvalBoard) : GameResult :=
  match b.status with
  | BoardStatus.Checkmate =>
    if b.side_to_move == Color.White then GameResult.BlackWins
    else GameResult.WhiteWins
  | BoardStatus.Stalemate => GameResult.Draw
  | BoardStatus.Ongoing =>
    if is_insufficient_material b then GameResult.Draw else GameResult.Ongoing

/-- evaluation.rs:331-400 — `eval`: terminal recognition first
(`±MATE_EVAL` for mates, `0` for draws), then the positional sum.  The
positional sum (material, piece-square tables, mobility with `10·ln(R)`,
king safety) is taken as a parameter `positional`, since the terminal
dispatch returns before reaching it and no claim below depends on its value;
all terminal returns are exactly representable rationals. -/
def eval (positional : EvalBoard → ℚ) (b : EvalBoard) : ℚ :=
  match has_game_ended b with
  | GameResult.WhiteWins => MATE_EVAL
  | GameResult.BlackWins => -MATE_EVAL
  | GameResult.Draw => 0
  | GameResult.Ongoing => positional b

/-- Accumulating decimal-digit parser over the characters of a token;
fails on the first non-digit. -/
def parseDigitsAux : List Char → ℕ → Option ℕ
  | [], acc => some acc
  | c :: cs, acc =>
    if c.isDigit then parseDigitsAux cs (acc * 10 + (c.toNat - 48)) else none

/-- Rust `str::parse::<i64>()` on the token strings: an optional leading
sign, one or more decimal digits and nothing else, with the `i64` range
check (out-of-range values fail in Rust and fall back to the caller's
default). -/
def parse_i64 (s : String) : Option ℤ :=
  let chars := s.data
  let signDigits : ℤ × List Char :=
    match chars with
    | c :: cs =>
      if c == ('-') then (-1, cs)
      else if c == ('+') then (1, cs)
      else (1, chars)
    | [] => (1, [])
  match signDigits.2 with
  | [] => none
  | d :: ds =>
    match parseDigitsAux (d :: ds) 0 with
    | some n =>
      if -(2 ^ 63) ≤ signDigits.1 * (n : ℤ) ∧ signDigits.1 * (n : ℤ) < 2 ^ 63 then
        some (signDigits.1 * (n : ℤ))
      else none
    | none => none

/-- main.rs:152-188 — `parse_go_command`: with the exact token layout
`go wtime X btime Y winc Z binc W` the budget is
`(remaining + increment) / 60000` seconds for the side to move (parse
failures default to 60000 ms remaining / 0 increment); a `movetime X` token
overrides it with `X / 1000`; otherwise the budget is 1 second.  `f64`
arithmetic on these magnitudes is modelled by exact rationals. -/
def parse_go_command (tokens : List String) (whiteToMove : Bool) : ℚ :=
  let t1 : ℚ :=
    if 9 ≤ tokens.length ∧ tokens.get? 1 = some ("wtime") ∧
        tokens.get? 3 = some ("btime") ∧ tokens.get? 5 = some ("winc") ∧
        tokens.get? 7 = some ("binc") then
      let wtime : ℤ := ((tokens.get? 2).bind parse_i64).getD 60000
      let btime : ℤ := ((tokens.get? 4).bind parse_i64).getD 60000
      let winc : ℤ := ((tokens.get? 6).bind parse_i64).getD 0
      let binc : ℤ := ((tokens.get? 8).bind parse_i64).getD 0
      if whiteToMove then ((wtime + winc : ℤ) : ℚ) / 60000
      else ((btime + binc : ℤ) : ℚ) / 60000
    else 1
  match tokens.findIdx? (fun t => t == ("movetime")) with
  | some idx =>
    match (tokens.get? (idx + 1)).bind parse_i64 with
    | some ms => (ms : ℚ) / 1000
    | none => t1
  | none => t1

/-- main.rs:16 — maximum time per move in seconds. -/
def MAX_TIME_PER_MOVE : ℚ := 5

/-- main.rs:68-69 — the `go` handler of `uci_main`: the parsed budget is
clamped with `time_to_move.min(MAX_TIME_PER_MOVE)` before being handed to
`play_move`. -/
def go_time_budget (tokens : List String) (whiteToMove : Bool) : ℚ :=
  min (parse_go_command tokens whiteToMove) MAX_TIME_PER_MOVE

/-- Frame/resource relation between an entry state and an exit state of a
search-side function: the position history is restored exactly, and the
transposition-table capacity bound is preserved. -/
def StatePres {Move : Type} (s t : SearchState Move) : Prop :=
  t.position_history = s.position_history ∧
  (s.transposition_table.length ≤ MAX_TT_ENTRIES →
    t.transposition_table.length ≤ MAX_TT_ENTRIES)

/-- A concrete instantiation of the `chess`-crate interface on `ℕ` positions,
moves and squares, used to witness the quantified theorems on concrete
inputs: a position with no legal moves. -/
def toyLib : ChessLib ℕ ℕ ℕ where
  getHash p := p
  legalMoves _ := []
  makeMove p m := p + m + 1
  nullMove _ := none
  sideToMove _ := Color.White
  checkersBB _ := 0
  pieceOn _ _ := none
  enPassant _ := none
  getSource _ := 0
  getDest _ := 0
  getPromotion _ := none
  piecesBB _ _ := 0
  colorCombinedBB _ _ := 0
  eval _ := Score.fin 7
  format m := toString m
  fromStr _ := none
  parseUciMove _ _ := none

/-- The concrete interface instantiation with exactly one legal move. -/
def toyLibOne : ChessLib ℕ ℕ ℕ :=
  { toyLib with legalMoves := fun _ => [5] }

/-- The concrete interface instantiation used for `set_position`: move
string `x0` parses to move `0` and `x1` to move `1`, only move `1` is legal,
and `makeMove` is injective on the runs below. -/
def toyLibSet : ChessLib ℕ ℕ ℕ :=
  { toyLib with
    fromStr := fun s =>
      if s == ("x0") then some 0 else if s == ("x1") then some 1 else none,
    legalMoves := fun _ => [1],
    makeMove := fun p m => 10 * p + m + 1 }

/-- A throwaway transposition-table entry for witness states. -/
def ttEntry0 : TTEntry ℕ :=
  TTEntry.mk 0 (Score.fin 0) TTFlag.Exact none

/-! ### Helper lemmas -/

theorem statePres_refl {Move : Type} (s : SearchState Move) : StatePres s s :=
  ⟨rfl, fun h => h⟩

theorem statePres_trans {Move : Type} {s t u : SearchState Move}
    (h1 : StatePres s t) (h2 : StatePres t u) : StatePres s u :=
  ⟨h2.1.trans h1.1, fun h => h2.2 (h1.2 h)⟩

@[simp] theorem check_time_position_history {Move : Type} (timeUp : ℕ → Bool)
    (s : SearchState Move) :
    (check_time timeUp s).position_history = s.position_history := by
  unfold check_time
  dsimp only
  split <;> rfl

@[simp] theorem check_time_transposition_table {Move : Type} (timeUp : ℕ → Bool)
    (s : SearchState Move) :
    (check_time timeUp s).transposition_table = s.transposition_table := by
  unfold check_time
  dsimp only
  split <;> rfl

theorem check_time_pres {Move : Type} (timeUp : ℕ → Bool)
    (s : SearchState Move) : StatePres s (check_time timeUp s) := by
  refine ⟨check_time_position_history timeUp s, fun h => ?_⟩
  rw [check_time_transposition_table]
  exact h

theorem ttInsert_length_le {Move : Type} (tt : List (ℕ × TTEntry Move))
    (key : ℕ) (e : TTEntry Move) :
    (ttInsert tt key e).length ≤ tt.length + 1 := by
  unfold ttInsert
  split
  · simp
  · simp

theorem ttStore_pres {Move : Type} (s : SearchState Move) (key : ℕ)
    (e : TTEntry Move) : StatePres s (ttStore s key e) := by
  unfold ttStore
  split
  case isTrue hlt =>
    refine ⟨rfl, fun _ => ?_⟩
    calc (ttInsert s.transposition_table key e).length
        ≤ s.transposition_table.length + 1 := ttInsert_length_le _ _ _
      _ ≤ MAX_TT_ENTRIES := by omega
  case isFalse => exact statePres_refl s

theorem finishNode_pres {Move : Type} (key : ℕ) (depth : ℤ) (white : Bool)
    (alpha0 beta0 bestEval : Score) (bestMove : Move) (s : SearchState Move) :
    StatePres s (finishNode key depth white alpha0 beta0 bestEval bestMove s).2 :=
  ttStore_pres s key _

theorem lookup_map_replace {Move : Type} (key : ℕ) (e : TTEntry Move) :
    ∀ tt : List (ℕ × TTEntry Move), (tt.lookup key).isSome →
      (tt.map (fun p => if p.1 == key then (key, e) else p)).lookup key =
        some e := by
  intro tt
  induction tt with
  | nil => intro h; simp [List.lookup] at h
  | cons p rest ih =>
    obtain ⟨pk, pv⟩ := p
    intro h
    by_cases hk : pk = key
    · subst hk
      rw [List.map_cons, if_pos (by simp : (((pk, pv).1 == pk) = true))]
      simp [List.lookup]
    · have hbeq : ¬(((pk, pv).1 == key) = true) := by simpa using hk
      have hkp : (key == pk) = false :=
        beq_eq_false_iff_ne.mpr fun hh => hk hh.symm
      rw [List.map_cons, if_neg hbeq]
      simp only [List.lookup, hkp] at h ⊢
      exact ih h

theorem ttInsert_lookup {Move : Type} (tt : List (ℕ × TTEntry Move)) (key : ℕ)
    (e : TTEntry Move) : (ttInsert tt key e).lookup key = some e := by
  unfold ttInsert
  by_cases h : (tt.lookup key).isSome
  · rw [if_pos h]
    exact lookup_map_replace key e tt h
  · rw [if_neg h]
    simp [List.lookup]

theorem pres_push_pop {Move : Type} {s c : SearchState Move} (key : ℕ)
    (h : StatePres
      { s with position_history := s.position_history ++ [key] } c) :
    StatePres s { c with position_history := c.position_history.dropLast } := by
  obtain ⟨h1, h2⟩ := h
  refine ⟨?_, fun hh => h2 hh⟩
  rw [h1]
  simp

theorem qloopWhite_pres [DecidableEq Sq] (lib : ChessLib Pos Move Sq)
    (recur : Pos → Score → Score → SearchState Move → Score × SearchState Move)
    (hrec : ∀ b a bb st, StatePres st (recur b a bb st).2) (board : Pos) :
    ∀ (moves : List Move) (alpha beta : Score) (s : SearchState Move),
      StatePres s (qloopWhite lib recur board moves alpha beta s).2 := by
  intro moves
  induction moves with
  | nil =>
    intro a b s
    simp only [qloopWhite]
    exact statePres_refl s
  | cons mv rest ih =>
    intro a b s
    simp only [qloopWhite]
    split
    · exact ih a b s
    · split
      · exact hrec _ _ _ _
      · split
        · exact hrec _ _ _ _
        · split
          · exact statePres_trans (hrec _ _ _ _) (ih _ _ _)
          · exact statePres_trans (hrec _ _ _ _) (ih _ _ _)

theorem qloopBlack_pres [DecidableEq Sq] (lib : ChessLib Pos Move Sq)
    (recur : Pos → Score → Score → SearchState Move → Score × SearchState Move)
    (hrec : ∀ b a bb st, StatePres st (recur b a bb st).2) (board : Pos) :
    ∀ (moves : List Move) (alpha beta : Score) (s : SearchState Move),
      StatePres s (qloopBlack lib recur board moves alpha beta s).2 := by
  intro moves
  induction moves with
  | nil =>
    intro a b s
    simp only [qloopBlack]
    exact statePres_refl s
  | cons mv rest ih =>
    intro a b s
    simp only [qloopBlack]
    split
    · exact ih a b s
    · split
      · exact hrec _ _ _ _
      · split
        · exact hrec _ _ _ _
        · split
          · exact statePres_trans (hrec _ _ _ _) (ih _ _ _)
          · exact statePres_trans (hrec _ _ _ _) (ih _ _ _)

theorem quiescence_pres [DecidableEq Sq] (lib : ChessLib Pos Move Sq)
    (timeUp : ℕ → Bool) :
    ∀ (fuel : ℕ) (board : Pos) (alpha beta : Score) (q : ℤ)
      (s : SearchState Move),
      StatePres s (quiescence lib timeUp fuel board alpha beta q s).2 := by
  intro fuel
  induction fuel with
  | zero =>
    intro board a b q s
    simp only [quiescence]
    exact statePres_refl s
  | succ n ih =>
    intro board a b q s
    simp only [quiescence]
    split
    · exact statePres_refl s
    · split
      · exact check_time_pres timeUp s
      · split
        · exact check_time_pres timeUp s
        · split
          · split
            · exact check_time_pres timeUp s
            · exact statePres_trans (check_time_pres timeUp s)
                (qloopWhite_pres lib _ (fun b1 a1 bb1 st => ih b1 a1 bb1 (q + 1) st)
                  board _ _ _ _)
          · split
            · exact check_time_pres timeUp s
            · exact statePres_trans (check_time_pres timeUp s)
                (qloopBlack_pres lib _ (fun b1 a1 bb1 st => ih b1 a1 bb1 (q + 1) st)
                  board _ _ _ _)

theorem searchChild_pres {Move : Type}
    (recur : Pos → Score → Score → ℤ → Bool → SearchState Move →
      Score × SearchState Move)
    (hrec : ∀ b a bb d n st, StatePres st (recur b a bb d n st).2)
    (newBoard : Pos) (alpha beta : Score) (depth : ℤ) (white doLmr : Bool)
    (sPush : SearchState Move) :
    ((searchChild recur newBoard alpha beta depth white doLmr sPush).2 = true →
      ∃ c, StatePres sPush c ∧
        (searchChild recur newBoard alpha beta depth white doLmr sPush).1.2 =
          { c with position_history := c.position_history.dropLast }) ∧
    ((searchChild recur newBoard alpha beta depth white doLmr sPush).2 = false →
      StatePres sPush
        (searchChild recur newBoard alpha beta depth white doLmr sPush).1.2) := by
  simp only [searchChild]
  repeat' split
  all_goals refine ⟨fun h1 => ?_, fun h2 => ?_⟩
  all_goals first
    | exact ⟨_, hrec _ _ _ _ _ _, rfl⟩
    | exact statePres_trans (hrec _ _ _ _ _ _) (hrec _ _ _ _ _ _)
    | exact hrec _ _ _ _ _ _
    | simp_all

theorem nullStep_pres_snd (lib : ChessLib Pos Move Sq)
    (searchRec : Pos → Score → Score → ℤ → Bool → SearchState Move →
      Score × SearchState Move)
    (hrec : ∀ b a bb d n st, StatePres st (searchRec b a bb d n st).2)
    (board : Pos) (alpha beta : Score) (depth : ℤ) (white tryNull : Bool)
    (s1 : SearchState Move) :
    StatePres s1
      (nullStep lib searchRec board alpha beta depth white tryNull s1).2 := by
  simp only [nullStep]
  repeat' split
  all_goals first
    | exact hrec _ _ _ _ _ _
    | exact statePres_refl s1

theorem nullStep_pres_some (lib : ChessLib Pos Move Sq)
    (searchRec : Pos → Score → Score → ℤ → Bool → SearchState Move →
      Score × SearchState Move)
    (hrec : ∀ b a bb d n st, StatePres st (searchRec b a bb d n st).2)
    (board : Pos) (alpha beta : Score) (depth : ℤ) (white tryNull : Bool)
    (s1 : SearchState Move) (res : Score × SearchState Move) :
    (nullStep lib searchRec board alpha beta depth white tryNull s1).1 =
      some res → StatePres s1 res.2 := by
  simp only [nullStep]
  repeat' split
  all_goals intro h
  all_goals dsimp only at h
  all_goals first
    | exact Option.noConfusion h
    | (injection h with h
       subst h
       exact hrec _ _ _ _ _ _)

theorem searchLoop_pres [DecidableEq Move] [DecidableEq Sq]
    (lib : ChessLib Pos Move Sq)
    (recur : Pos → Score → Score → ℤ → Bool → SearchState Move →
      Score × SearchState Move)
    (hrec : ∀ b a bb d n st, StatePres st (recur b a bb d n st).2)
    (board : Pos) (key : ℕ) (depth : ℤ) (white inChk : Bool)
    (alpha0 beta0 : Score) :
    ∀ (moves : List Move) (i : ℕ) (alpha beta bestEval : Score)
      (bestMove : Move) (s : SearchState Move),
      StatePres s
        (searchLoop lib recur board key depth white inChk alpha0 beta0 moves i
          alpha beta bestEval bestMove s).2 := by
  intro moves
  induction moves with
  | nil =>
    intro i a b be bm s
    simp only [searchLoop]
    exact finishNode_pres _ _ _ _ _ _ _ _
  | cons mv rest ih =>
    intro i a b be bm s
    simp only [searchLoop]
    split
    case isTrue habort =>
      obtain ⟨c, hc, heq⟩ := (searchChild_pres recur hrec _ _ _ _ _ _ _).1 habort
      rw [heq]
      exact pres_push_pop key hc
    case isFalse habort =>
      have hstep := (searchChild_pres recur hrec (lib.makeMove board mv) a b
        depth white _ _).2 (Bool.eq_false_iff.mpr habort)
      have hsPop := pres_push_pop (s := s) key hstep
      repeat' split
      all_goals first
        | exact hsPop
        | exact statePres_trans hsPop (finishNode_pres _ _ _ _ _ _ _ _)
        | exact statePres_trans hsPop (ih _ _ _ _ _ _)

theorem search_pres [DecidableEq Move] [DecidableEq Sq]
    (lib : ChessLib Pos Move Sq) (timeUp : ℕ → Bool) :
    ∀ (fuel : ℕ) (board : Pos) (alpha beta : Score) (depth : ℤ)
      (allowNull : Bool) (s : SearchState Move),
      StatePres s
        (search lib timeUp fuel board alpha beta depth allowNull s).2 := by
  intro fuel
  induction fuel with
  | zero =>
    intro board a b depth allowNull s
    simp only [search]
    exact statePres_refl s
  | succ n ih =>
    intro board a b depth allowNull s
    simp only [search]
    split
    · exact statePres_refl s
    · split
      · exact check_time_pres timeUp s
      · split
        · exact check_time_pres timeUp s
        · split
          · exact check_time_pres timeUp s
          · split
            · exact statePres_trans (check_time_pres timeUp s)
                (quiescence_pres lib timeUp n _ _ _ _ _)
            · have hnull := nullStep_pres_snd lib
                (fun b1 a1 bb1 d1 n1 st => search lib timeUp n b1 a1 bb1 d1 n1 st)
                (fun b1 a1 bb1 d1 n1 st => ih b1 a1 bb1 d1 n1 st) board a b depth
                (lib.sideToMove board == Color.White)
                (allowNull && !(lib.checkersBB board != 0) && decide (3 ≤ depth) &&
                  has_non_pawn_material lib board (lib.sideToMove board))
                (check_time timeUp s)
              split
              case h_1 res heq =>
                exact statePres_trans (check_time_pres timeUp s)
                  (nullStep_pres_some lib _
                    (fun b1 a1 bb1 d1 n1 st => ih b1 a1 bb1 d1 n1 st) board a b
                    depth _ _ _ res heq)
              case h_2 heq =>
                repeat' split
                all_goals first
                  | exact statePres_trans (check_time_pres timeUp s) hnull
                  | exact statePres_trans
                      (statePres_trans (check_time_pres timeUp s) hnull)
                      (searchLoop_pres lib _
                        (fun b1 a1 bb1 d1 n1 st => ih b1 a1 bb1 d1 n1 st)
                        board _ _ _ _ _ _ _ _ _ _ _ _ _)

theorem root_moves_loop_pres [DecidableEq Move] [DecidableEq Sq]
    (lib : ChessLib Pos Move Sq) (timeUp : ℕ → Bool) (fuel : ℕ) (board : Pos)
    (depth : ℤ) (white : Bool) :
    ∀ (moves : List (Move × Score)) (dm : Move) (de : Score)
      (s : SearchState Move),
      StatePres s
        (root_moves_loop lib timeUp fuel board depth white moves dm de s).2.2.2 := by
  intro moves
  induction moves with
  | nil =>
    intro dm de s
    simp only [root_moves_loop]
    exact statePres_refl s
  | cons p rest ih =>
    obtain ⟨mv, ev⟩ := p
    intro dm de s
    simp only [root_moves_loop]
    repeat' split
    all_goals first
      | exact search_pres lib timeUp fuel _ _ _ _ _ _
      | exact statePres_trans (search_pres lib timeUp fuel _ _ _ _ _ _)
          (ih _ _ _)

theorem iterative_deepening_pres [DecidableEq Move] [DecidableEq Sq]
    (lib : ChessLib Pos Move Sq) (timeUp : ℕ → Bool) (sfuel : ℕ) (board : Pos)
    (white : Bool) :
    ∀ (n : ℕ) (depth : ℤ) (moves : List (Move × Score)) (bm : Move)
      (be : Score) (s : SearchState Move),
      StatePres s
        (iterative_deepening lib timeUp sfuel board white n depth moves bm be
          s).2.2 := by
  intro n
  induction n with
  | zero =>
    intro depth moves bm be s
    simp only [iterative_deepening]
    exact statePres_refl s
  | succ k ih =>
    intro depth moves bm be s
    simp only [iterative_deepening]
    repeat' split
    all_goals first
      | exact statePres_refl s
      | exact root_moves_loop_pres lib timeUp sfuel board _ white _ _ _ _
      | exact statePres_trans
          (root_moves_loop_pres lib timeUp sfuel board _ white _ _ _ _)
          (ih _ _ _ _ _)

/-! ### C1 — transposition-table flag derivation -/

/-- C1: the spec says the stored flag is derived side-independently from the
relation of `best_score` to the original window (`≤ α₀ → Upper`,
`≥ β₀ → Lower`, else `Exact`).  The code (engine.rs:366-380) instead inverts
this mapping when Black is to move, although its own TT probe
(engine.rs:236-248) interprets the flags side-independently: at the concrete
Black fail-low input `best = 0, α₀ = 1, β₀ = 2` the code derives
`LowerBound` where the claim requires `UpperBound` (and at the Black
fail-high input `best = 3` it derives `UpperBound` instead of `LowerBound`),
while for White the code agrees with the spec's mapping everywhere. -/
theorem C1_tt_flag_black_inverted :
    ttFlagOf false (Score.fin 0) (Score.fin 1) (Score.fin 2) =
      TTFlag.LowerBound ∧
    spec_tt_flag (Score.fin 0) (Score.fin 1) (Score.fin 2) =
      TTFlag.UpperBound ∧
    ttFlagOf false (Score.fin 3) (Score.fin 1) (Score.fin 2) =
      TTFlag.UpperBound ∧
    spec_tt_flag (Score.fin 3) (Score.fin 1) (Score.fin 2) =
      TTFlag.LowerBound ∧
    (∀ best alpha0 beta0 : Score,
      ttFlagOf true best alpha0 beta0 = spec_tt_flag best alpha0 beta0) := by
  refine ⟨by decide, by decide, by decide, by decide, fun best a b => rfl⟩

/-! ### C2 — evaluator terminal recognition -/

/-- C2: on a checkmate, `eval` returns `-MATE_EVAL` when White is to move
and `+MATE_EVAL` when Black is; it returns `0` on stalemates, on boards with
exactly two pieces, and on boards with exactly three pieces whose third piece
is a knight or a bishop — regardless of the positional term.  The two
insufficient-material conjuncts carry the hypothesis that the status is not
`Checkmate`, which holds for every legal chess position with those
materials (K vs K and K+minor vs K admit no checkmate), a fact about chess
the abstraction does not internalise. -/
theorem C2_eval_terminal :
    ∀ (positional : EvalBoard → ℚ) (b : EvalBoard),
      (b.status = BoardStatus.Checkmate →
        (b.side_to_move = Color.White → eval positional b = -MATE_EVAL) ∧
        (b.side_to_move = Color.Black → eval positional b = MATE_EVAL)) ∧
      (b.status = BoardStatus.Stalemate → eval positional b = 0) ∧
      (b.status ≠ BoardStatus.Checkmate → b.pieceCount = 2 →
        eval positional b = 0) ∧
      (b.status ≠ BoardStatus.Checkmate → b.pieceCount = 3 →
        (b.knightCount = 1 ∧ b.bishopCount = 0 ∨
          b.knightCount = 0 ∧ b.bishopCount = 1) →
        eval positional b = 0) := by
  intro positional b
  obtain ⟨st, stm, pc, kc, bc⟩ := b
  refine ⟨?_, ?_, ?_, ?_⟩
  · rintro rfl
    constructor
    · rintro rfl
      simp [eval, has_game_ended]
    · rintro rfl
      simp [eval, has_game_ended]
  · rintro rfl
    simp [eval, has_game_ended]
  · rintro hst rfl
    cases st with
    | Checkmate => exact absurd rfl hst
    | Stalemate => simp [eval, has_game_ended]
    | Ongoing => simp [eval, has_game_ended, is_insufficient_material]
  · rintro hst rfl hmk
    cases st with
    | Checkmate => exact absurd rfl hst
    | Stalemate => simp [eval, has_game_ended]
    | Ongoing =>
      rcases hmk with ⟨hk, hb⟩ | ⟨hk, hb⟩ <;> dsimp only at hk hb <;>
        subst hk <;> subst hb <;>
        simp [eval, has_game_ended, is_insufficient_material]

/-! ### C3 — `go` time-control formula -/

/-- C3: the claim (and spec §6) say the budget for
`go wtime T btime T winc I binc I` is `T/30000 + I/1000` seconds; the code
(main.rs:162-173) computes `(T + I)/60000`.  At
`go wtime 60000 btime 60000 winc 0 binc 0` with White to move the code yields
`1` second where the claim requires `2`; the `movetime` and token-free
defaults do agree with the claim. -/
theorem C3_go_budget_divergence :
    parse_go_command
      [("go"), ("wtime"), ("60000"), ("btime"), ("60000"), ("winc"), ("0"),
        ("binc"), ("0")] true = 1 ∧
    (60000 : ℚ) / 30000 + (0 : ℚ) / 1000 = 2 ∧
    (1 : ℚ) ≠ 2 ∧
    parse_go_command [("go"), ("movetime"), ("2500")] true = (5 : ℚ) / 2 ∧
    parse_go_command [("go")] true = 1 := by
  refine ⟨?_, by norm_num, by norm_num, ?_, ?_⟩
  · unfold parse_go_command
    rw [show List.findIdx? (fun t => t == ("movetime"))
        [("go"), ("wtime"), ("60000"), ("btime"), ("60000"), ("winc"), ("0"),
          ("binc"), ("0")] = none from by decide]
    rw [if_pos (by decide)]
    dsimp only
    rw [show ((([("go"), ("wtime"), ("60000"), ("btime"), ("60000"), ("winc"),
        ("0"), ("binc"), ("0")] : List String).get? 2).bind parse_i64).getD
          60000 +
        ((([("go"), ("wtime"), ("60000"), ("btime"), ("60000"), ("winc"),
        ("0"), ("binc"), ("0")] : List String).get? 6).bind parse_i64).getD 0 =
        (60000 : ℤ) from by decide]
    norm_num
  · unfold parse_go_command
    rw [show List.findIdx? (fun t => t == ("movetime"))
        [("go"), ("movetime"), ("2500")] = some 1 from by decide]
    dsimp only
    rw [show (([("go"), ("movetime"), ("2500")] : List String).get?
        (1 + 1)).bind parse_i64 = some 2500 from by decide]
    dsimp only
    norm_num
  · unfold parse_go_command
    rw [show List.findIdx? (fun t => t == ("movetime")) [("go")] = none from
      by decide]
    rw [if_neg (by decide)]

/-! ### C4 — illegal move handling in `set_position` -/

/-- C4 counterexample: in the concrete instantiation `toyLibSet`, the string
`x0` parses to the illegal move `0`, yet `set_position` on `[x0, x1]` does
not stop there: it goes on to apply the legal `x1` and returns board `2`,
not the pre-`x0` board `0` that the claim requires. -/
theorem C4_drop_suffix_counterexample :
    toyLibSet.fromStr ("x0") = some 0 ∧
    (toyLibSet.legalMoves 0).contains 0 = false ∧
    (set_position toyLibSet (fun _ => 0) ("fen") [("x0"), ("x1")]).1 = 2 ∧
    (set_position toyLibSet (fun _ => 0) ("fen") [("x0"), ("x1")]).1 ≠ 0 := by
  refine ⟨by decide, by decide, by decide, by decide⟩

/-- C4 (amended): a move string that is dropped — because it parses to a
move that is illegal on the current board, or fails both parsers — is simply
skipped: `set_position`'s loop continues with the remaining move strings on
the unchanged board, so the returned board is the result of applying every
applicable move in order, not the state frozen at the first illegal move. -/
theorem C4_illegal_move_skipped :
    ∀ {Pos Move Sq : Type} [DecidableEq Move] (lib : ChessLib Pos Move Sq)
      (board : Pos) (history : List ℕ) (s : String) (rest : List String),
      ((∃ mv, lib.fromStr s = some mv ∧
          (lib.legalMoves board).contains mv = false) ∨
        (lib.fromStr s = none ∧ lib.parseUciMove board s = none)) →
      set_position_loop lib board history (s :: rest) =
        set_position_loop lib board history rest := by
  intro Pos Move Sq _ lib board history s rest h
  rcases h with ⟨mv, hparse, hilleg⟩ | ⟨hparse, hfall⟩
  · simp only [set_position_loop]
    rw [hparse]
    dsimp only
    split
    case isTrue h1 => exact absurd (hilleg ▸ h1) Bool.false_ne_true
    case isFalse h1 => rfl
  · simp only [set_position_loop]
    rw [hparse]
    dsimp only
    rw [hfall]

/-- C4 witness: the amended skipping behaviour at the concrete illegal
string `x0` of `toyLibSet`. -/
theorem C4_illegal_move_skipped_witness :
    set_position_loop toyLibSet 0 [0] [("x0"), ("x1")] =
      set_position_loop toyLibSet 0 [0] [("x1")] :=
  C4_illegal_move_skipped toyLibSet 0 [0] ("x0") [("x1")]
    (Or.inl ⟨0, by decide, by decide⟩)

/-! ### C10 — the 5-second cap on the `go` budget -/

/-- C10: the budget handed to `play_move` by the `go` handler is the parsed
budget clamped to `MAX_TIME_PER_MOVE = 5` seconds: it never exceeds the cap,
it equals the parsed budget whenever that is within the cap, and a
`movetime 60000` request (60 parsed seconds) is cut to 5. -/
theorem C10_time_cap :
    (∀ (tokens : List String) (w : Bool),
      go_time_budget tokens w ≤ MAX_TIME_PER_MOVE) ∧
    (∀ (tokens : List String) (w : Bool),
      parse_go_command tokens w ≤ MAX_TIME_PER_MOVE →
      go_time_budget tokens w = parse_go_command tokens w) ∧
    go_time_budget [("go"), ("movetime"), ("60000")] true = MAX_TIME_PER_MOVE ∧
    parse_go_command [("go"), ("movetime"), ("60000")] true = 60 := by
  have h60 : parse_go_command [("go"), ("movetime"), ("60000")] true = 60 := by
    unfold parse_go_command
    rw [show List.findIdx? (fun t => t == ("movetime"))
        [("go"), ("movetime"), ("60000")] = some 1 from by decide]
    dsimp only
    rw [show (([("go"), ("movetime"), ("60000")] : List String).get?
        (1 + 1)).bind parse_i64 = some 60000 from by decide]
    dsimp only
    norm_num
  refine ⟨fun tokens w => min_le_right _ _, fun tokens w h => min_eq_left h,
    ?_, h60⟩
  unfold go_time_budget
  rw [h60]
  exact min_eq_right (by norm_num [MAX_TIME_PER_MOVE])

/-- C10 witness: the cap theorem applied at the bare `go` command, whose
parsed budget (the 1-second default) is within the cap and survives the
clamp unchanged. -/
theorem C10_time_cap_witness :
    go_time_budget [("go")] true = parse_go_command [("go")] true :=
  C10_time_cap.2.1 [("go")] true (by decide)

/-- C2 witness: the terminal-evaluation theorem applied to a checkmated
board for each side, a stalemate, K vs K, and K+N vs K, all with a nonzero
positional term. -/
theorem C2_eval_terminal_witness :
    eval (fun _ => 37) (EvalBoard.mk BoardStatus.Checkmate Color.White 32 4 4) =
      -MATE_EVAL ∧
    eval (fun _ => 37) (EvalBoard.mk BoardStatus.Checkmate Color.Black 32 4 4) =
      MATE_EVAL ∧
    eval (fun _ => 37) (EvalBoard.mk BoardStatus.Stalemate Color.White 5 0 0) =
      0 ∧
    eval (fun _ => 37) (EvalBoard.mk BoardStatus.Ongoing Color.White 2 0 0) =
      0 ∧
    eval (fun _ => 37) (EvalBoard.mk BoardStatus.Ongoing Color.Black 3 1 0) =
      0 :=
  ⟨((C2_eval_terminal _ _).1 rfl).1 rfl, ((C2_eval_terminal _ _).1 rfl).2 rfl,
    (C2_eval_terminal _ _).2.1 rfl,
    (C2_eval_terminal _ _).2.2.1 (by decide) rfl,
    (C2_eval_terminal _ _).2.2.2 (by decide) rfl (Or.inl ⟨rfl, rfl⟩)⟩

/-! ### C5 — three-fold repetition short-circuit -/

/-- C5: whenever the hash of the searched position already occurs at least
twice in the state's position history and the search has not been stopped,
`search` returns `0.0` at once — the returned state carries an untouched
transposition table and position history, witnessing that the repetition
test fires before the TT probe and before any recursion (only the node
counter of `check_time` has advanced). -/
theorem C5_repetition_draw :
    ∀ {Pos Move Sq : Type} [DecidableEq Move] [DecidableEq Sq]
      (lib : ChessLib Pos Move Sq) (timeUp : ℕ → Bool) (fuel : ℕ) (board : Pos)
      (alpha beta : Score) (depth : ℤ) (allowNull : Bool)
      (s : SearchState Move),
      s.stopped = false →
      2 ≤ s.position_history.count (lib.getHash board) →
      (search lib timeUp (fuel + 1) board alpha beta depth allowNull s).1 =
        Score.fin 0 ∧
      (search lib timeUp (fuel + 1) board alpha beta depth allowNull
        s).2.transposition_table = s.transposition_table ∧
      (search lib timeUp (fuel + 1) board alpha beta depth allowNull
        s).2.position_history = s.position_history := by
  intro Pos Move Sq _ _ lib timeUp fuel board alpha beta depth allowNull s
    hstop hcount
  simp only [search]
  split
  case isTrue h => exact absurd (hstop ▸ h) Bool.false_ne_true
  case isFalse h =>
    split
    case isTrue h2 => exact ⟨rfl, by simp, by simp⟩
    case isFalse h2 =>
      split
      case isTrue h3 => exact ⟨rfl, by simp, by simp⟩
      case isFalse h3 =>
        exact absurd (by simpa using hcount) h3

/-- C5 witness: the repetition theorem at a concrete state whose history
holds the current hash twice. -/
theorem C5_repetition_draw_witness :
    (search toyLib (fun _ => false) 1 7 Score.negInf Score.posInf 3 true
      (SearchState.mk [] [7, 7] 0 false)).1 = Score.fin 0 ∧
    (search toyLib (fun _ => false) 1 7 Score.negInf Score.posInf 3 true
      (SearchState.mk [] [7, 7] 0 false)).2.transposition_table = [] ∧
    (search toyLib (fun _ => false) 1 7 Score.negInf Score.posInf 3 true
      (SearchState.mk [] [7, 7] 0 false)).2.position_history = [7, 7] :=
  C5_repetition_draw toyLib (fun _ => false) 0 7 Score.negInf Score.posInf 3
    true (SearchState.mk [] [7, 7] 0 false) rfl (by decide)

/-! ### C6 — opening-book probe in `play_move` -/

/-- C6: when the book maps the position's hash to a nonempty move set,
`play_move` returns some move of that set with score `0` — deterministically
its unique element when the set is a singleton — and the result is
independent of the time oracle, the fuel and the history, i.e. the search is
never entered.  The random choice is any `choose` that picks an element of a
nonempty list, as `SliceRandom::choose` does. -/
theorem C6_book_probe :
    ∀ {Pos Move Sq : Type} [DecidableEq Move] [DecidableEq Sq]
      (lib : ChessLib Pos Move Sq) (timeUp timeUp' : ℕ → Bool)
      (choose : List Move → Option Move) (fuel fuel' : ℕ) (board : Pos)
      (book : List (ℕ × List Move)) (history history' : List ℕ)
      (ms : List Move),
      (∀ l : List Move, l ≠ [] → ∃ m, m ∈ l ∧ choose l = some m) →
      book.lookup (lib.getHash board) = some ms → ms ≠ [] →
      (∃ m, m ∈ ms ∧ play_move lib timeUp choose fuel board book history =
        (lib.format m, Score.fin 0)) ∧
      (∀ m, ms = [m] → play_move lib timeUp choose fuel board book history =
        (lib.format m, Score.fin 0)) ∧
      play_move lib timeUp choose fuel board book history =
        play_move lib timeUp' choose fuel' board book history' := by
  intro Pos Move Sq _ _ lib timeUp timeUp' choose fuel fuel' board book history
    history' ms hchoose hlk hne
  simp only [play_move]
  rw [hlk]
  dsimp only
  by_cases hlen : 1 < ms.length
  · rw [if_pos hlen, if_pos hlen]
    obtain ⟨m, hm, hc⟩ := hchoose ms hne
    rw [hc]
    refine ⟨⟨m, hm, rfl⟩, ?_, rfl⟩
    intro m' hms
    subst hms
    simp at hlen
  · rw [if_neg hlen, if_neg hlen]
    obtain ⟨m, t, rfl⟩ := List.exists_cons_of_ne_nil hne
    have ht : t = [] := by
      cases t with
      | nil => rfl
      | cons x xs => simp at hlen
    subst ht
    refine ⟨⟨m, List.mem_cons_self m [], rfl⟩, ?_, rfl⟩
    intro m' hms
    injection hms with h1 h2
    subst h1
    rfl

/-- C6 witness: the book theorem at a concrete singleton book entry. -/
theorem C6_book_probe_witness :
    play_move toyLib (fun _ => false) List.head? 2 7 [(7, [9])] [] =
      (toyLib.format 9, Score.fin 0) :=
  (C6_book_probe toyLib (fun _ => false) (fun _ => true) List.head? 2 2 7
    [(7, [9])] [] [] [9]
    (fun l hl =>
      match l, hl with
      | a :: t, _ => ⟨a, List.mem_cons_self a t, rfl⟩
      | [], hl => absurd rfl hl)
    rfl (by decide)).2.1 9 rfl

/-! ### C7 — degenerate root positions in `play_move` -/

/-- C7: with no book hit, a position with zero legal moves makes `play_move`
return the empty move string with score `0`, and a position with exactly one
legal move makes it return that move with the static evaluation of the
position — in both cases without entering iterative deepening (the result is
an immediate return, independent of the time oracle and the fuel). -/
theorem C7_root_degenerate :
    ∀ {Pos Move Sq : Type} [DecidableEq Move] [DecidableEq Sq]
      (lib : ChessLib Pos Move Sq) (timeUp : ℕ → Bool)
      (choose : List Move → Option Move) (fuel : ℕ) (board : Pos)
      (book : List (ℕ × List Move)) (history : List ℕ),
      (book.lookup (lib.getHash board) = none ∨
        book.lookup (lib.getHash board) = some []) →
      ((lib.legalMoves board = [] →
        play_move lib timeUp choose fuel board book history =
          ("", Score.fin 0)) ∧
       (∀ m, lib.legalMoves board = [m] →
        play_move lib timeUp choose fuel board book history =
          (lib.format m, lib.eval board))) := by
  intro Pos Move Sq _ _ lib timeUp choose fuel board book history hbook
  have hpm : play_move lib timeUp choose fuel board book history =
      play_move_search lib timeUp fuel board history := by
    simp only [play_move]
    rcases hbook with h | h
    · rw [h]
    · rw [h]
      dsimp only
      rw [if_neg (by simp)]
      rfl
  constructor
  · intro hmv
    rw [hpm]
    simp only [play_move_search]
    rw [hmv]
    rfl
  · intro m hmv
    rw [hpm]
    simp only [play_move_search]
    rw [hmv]
    rfl

/-- C7 witness: the degenerate-root theorem at a concrete position with no
legal moves and at one with a single legal move, with an empty book. -/
theorem C7_root_degenerate_witness :
    play_move toyLib (fun _ => false) List.head? 3 0 [] [] =
      ("", Score.fin 0) ∧
    play_move toyLibOne (fun _ => false) List.head? 3 0 [] [] =
      (toyLibOne.format 5, toyLibOne.eval 0) :=
  ⟨(C7_root_degenerate toyLib (fun _ => false) List.head? 3 0 [] []
      (Or.inl rfl)).1 rfl,
   (C7_root_degenerate toyLibOne (fun _ => false) List.head? 3 0 [] []
      (Or.inl rfl)).2 5 rfl⟩

/-! ### C8 — transposition-table capacity bound -/

/-- C8: the transposition table never exceeds `MAX_TT_ENTRIES = 1 000 000`
entries during `play_move`: a store issued when the table already holds
exactly the capacity is dropped with the state unchanged, a store below
capacity inserts or replaces the binding of the given hash, and both the
recursive `search` and the iterative-deepening driver (whose state
`play_move` creates with an empty table) preserve the capacity bound. -/
theorem C8_tt_capacity :
    (∀ {Move : Type} (s : SearchState Move) (key : ℕ) (e : TTEntry Move),
      s.transposition_table.length = MAX_TT_ENTRIES → ttStore s key e = s) ∧
    (∀ {Move : Type} (s : SearchState Move) (key : ℕ) (e : TTEntry Move),
      s.transposition_table.length < MAX_TT_ENTRIES →
      (ttStore s key e).transposition_table.lookup key = some e ∧
      (ttStore s key e).transposition_table =
        ttInsert s.transposition_table key e) ∧
    (∀ {Pos Move Sq : Type} [DecidableEq Move] [DecidableEq Sq]
      (lib : ChessLib Pos Move Sq) (timeUp : ℕ → Bool) (fuel : ℕ) (board : Pos)
      (alpha beta : Score) (depth : ℤ) (allowNull : Bool)
      (s : SearchState Move),
      s.transposition_table.length ≤ MAX_TT_ENTRIES →
      (search lib timeUp fuel board alpha beta depth allowNull
        s).2.transposition_table.length ≤ MAX_TT_ENTRIES) ∧
    (∀ {Pos Move Sq : Type} [DecidableEq Move] [DecidableEq Sq]
      (lib : ChessLib Pos Move Sq) (timeUp : ℕ → Bool) (sfuel : ℕ)
      (board : Pos) (white : Bool) (n : ℕ) (depth : ℤ)
      (moves : List (Move × Score)) (bm : Move) (be : Score)
      (s : SearchState Move),
      s.transposition_table.length ≤ MAX_TT_ENTRIES →
      (iterative_deepening lib timeUp sfuel board white n depth moves bm be
        s).2.2.transposition_table.length ≤ MAX_TT_ENTRIES) := by
  refine ⟨?_, ?_, ?_, ?_⟩
  · intro Move s key e h
    unfold ttStore
    rw [if_neg (by omega)]
  · intro Move s key e h
    unfold ttStore
    rw [if_pos h]
    exact ⟨ttInsert_lookup _ _ _, rfl⟩
  · intro Pos Move Sq _ _ lib timeUp fuel board alpha beta depth allowNull s h
    exact (search_pres lib timeUp fuel board alpha beta depth allowNull s).2 h
  · intro Pos Move Sq _ _ lib timeUp sfuel board white n depth moves bm be s h
    exact (iterative_deepening_pres lib timeUp sfuel board white n depth moves
      bm be s).2 h

/-- C8 witness: the capacity theorem at a table of exactly one million
entries (the store is dropped), at the empty table (the store lands), and at
concrete `search` / `iterative_deepening` runs started below capacity. -/
theorem C8_tt_capacity_witness :
    ttStore
      (SearchState.mk (List.replicate MAX_TT_ENTRIES ((0 : ℕ), ttEntry0)) []
        0 false) 5 ttEntry0 =
      SearchState.mk (List.replicate MAX_TT_ENTRIES ((0 : ℕ), ttEntry0)) []
        0 false ∧
    (ttStore (SearchState.mk ([] : List (ℕ × TTEntry ℕ)) [] 0 false) 5
      ttEntry0).transposition_table.lookup 5 = some ttEntry0 ∧
    (search toyLib (fun _ => false) 2 5 Score.negInf Score.posInf 1 true
      (SearchState.mk [] [] 0 false)).2.transposition_table.length ≤
      MAX_TT_ENTRIES ∧
    (iterative_deepening toyLib (fun _ => false) 1 5 true 1 1
      [(4, Score.fin 0)] 4 (Score.fin 0)
      (SearchState.mk [] [] 0 false)).2.2.transposition_table.length ≤
      MAX_TT_ENTRIES :=
  ⟨C8_tt_capacity.1 _ 5 ttEntry0 (by simp),
   (C8_tt_capacity.2.1 _ 5 ttEntry0 (by decide)).1,
   C8_tt_capacity.2.2.1 toyLib (fun _ => false) 2 5 Score.negInf Score.posInf
     1 true _ (by decide),
   C8_tt_capacity.2.2.2 toyLib (fun _ => false) 1 5 true 1 1
     [(4, Score.fin 0)] 4 (Score.fin 0) _ (by decide)⟩

/-! ### C9 — the position history is restored on every return path -/

/-- C9: `search` returns with the position history exactly as it found it,
on every return path — early exits, stopped unwinds (including the LMR
stopped path, which pops before returning), null-move returns and normal
completion — because every hash pushed before a recursive call is popped
after it. -/
theorem C9_history_restored :
    ∀ {Pos Move Sq : Type} [DecidableEq Move] [DecidableEq Sq]
      (lib : ChessLib Pos Move Sq) (timeUp : ℕ → Bool) (fuel : ℕ) (board : Pos)
      (alpha beta : Score) (depth : ℤ) (allowNull : Bool)
      (s : SearchState Move),
      (search lib timeUp fuel board alpha beta depth allowNull
        s).2.position_history = s.position_history := by
  intro Pos Move Sq _ _ lib timeUp fuel board alpha beta depth allowNull s
  exact (search_pres lib timeUp fuel board alpha beta depth allowNull s).1

end Xewali
